import Mathlib

/-!
Verification development for the etsm server-management tool
(`src/etsm/managers.py`).

The config-file mutation engine works on plain text.  We embed the text
operations over `List Char` (Lean strings are structures over `List Char`,
so `String` literals enter through `.data`).  Python's `re` patterns used
by the source are all of the shape `^LIT\s+....*$` with the `MULTILINE`
flag: `^` and `$` anchor at line boundaries, `.` never matches a newline,
but `\s` DOES match `'\n'`, so a single match can span several lines —
the `\s+` run may cross newlines, with the rest of the pattern landing on
a later line.  The embedding models this with a scanner over the line
list: a match starts at a line start, consumes the literal, then the
maximal whitespace run (crossing whole whitespace-only lines), then the
rest of the pattern within the line where the first non-whitespace
character sits, and ends at that line's end; the scan resumes at the next
line, exactly as `re.sub`/`re.findall` resume after a match.  Because
every token the source places after `\s+` begins with a non-whitespace
character (a word-character name or `"`), the greedy run needs no
backtracking, which the scanner relies on.

Fallible Python operations (exceptions) are embedded with `PyResult`.
-/

namespace Etsm

/-- Result of running a piece of Python code: either a normal value or a
raised exception, identified by a message. -/
inductive PyResult (α : Type) where
  | ok (val : α)
  | raised (exc : String)
deriving DecidableEq

/-- Character class `[A-Za-z0-9_]`, i.e. Python's `\w` on ASCII input
(`re` uses Unicode word characters; the cvar/exec names in scope are ASCII). -/
def isWordChar (c : Char) : Bool :=
  ('A' ≤ c && c ≤ 'Z') || ('a' ≤ c && c ≤ 'z') || ('0' ≤ c && c ≤ '9') || c == '_'

/-- Python's `\s` restricted to characters that can occur inside one line
(everything `\s` matches except `\n` itself). -/
def isPySpace (c : Char) : Bool :=
  c == ' ' || c == '\t' || c == '\r' || c == '\x0b' || c == '\x0c'

/-- Split a text into its lines at `'\n'`, keeping empty lines: the
line-by-line view that `re.MULTILINE` anchors `^`/`$` induce.
`splitLines "a\nb\n" = ["a", "b", ""]` (as char lists). -/
def splitLines : List Char → List (List Char)
  | [] => [[]]
  | c :: rest =>
    if c = '\n' then [] :: splitLines rest
    else
      match splitLines rest with
      | [] => [[c]]
      | l :: ls => (c :: l) :: ls

/-- Rejoin lines with `'\n'`; left inverse of `splitLines`. -/
def joinLines : List (List Char) → List Char
  | [] => []
  | [l] => l
  | l :: ls => l ++ '\n' :: joinLines ls

theorem splitLines_ne_nil (cs : List Char) : splitLines cs ≠ [] := by
  induction cs with
  | nil => simp [splitLines]
  | cons c rest ih =>
    simp only [splitLines]
    split
    · simp
    · cases h : splitLines rest with
      | nil => simp
      | cons l ls => simp

theorem joinLines_splitLines (cs : List Char) : joinLines (splitLines cs) = cs := by
  induction cs with
  | nil => rfl
  | cons c rest ih =>
    simp only [splitLines]
    split
    · rename_i hc
      subst hc
      cases h : splitLines rest with
      | nil => exact absurd h (splitLines_ne_nil rest)
      | cons l ls =>
        rw [h] at ih
        cases ls with
        | nil => simp [joinLines, ← ih]
        | cons l' ls' => simp [joinLines, ← ih]
    · cases h : splitLines rest with
      | nil => exact absurd h (splitLines_ne_nil rest)
      | cons l ls =>
        rw [h] at ih
        cases ls with
        | nil => simp [joinLines, ← ih]
        | cons l' ls' => simp [joinLines] at ih ⊢; simp [← ih]

theorem mem_splitLines_no_nl {cs : List Char} {l : List Char}
    (h : l ∈ splitLines cs) : '\n' ∉ l := by
  induction cs generalizing l with
  | nil => simp [splitLines] at h; simp [h]
  | cons c rest ih =>
    simp only [splitLines] at h
    split at h
    · rcases List.mem_cons.mp h with h' | h'
      · simp [h']
      · exact ih h'
    · rename_i hc
      cases hsplit : splitLines rest with
      | nil => exact absurd hsplit (splitLines_ne_nil rest)
      | cons l0 ls0 =>
        rw [hsplit] at h
        rcases List.mem_cons.mp h with h' | h'
        · subst h'
          intro hmem
          rcases List.mem_cons.mp hmem with h'' | h''
          · exact hc h''.symm
          · exact ih (by simp [hsplit]) h''
        · exact ih (by simp [hsplit, h'])

theorem splitLines_of_no_nl {l : List Char} (h : '\n' ∉ l) : splitLines l = [l] := by
  induction l with
  | nil => rfl
  | cons c rest ih =>
    simp only [splitLines]
    have hc : ¬ c = '\n' := fun hc => h (by simp [hc])
    rw [if_neg hc, ih (fun hm => h (List.mem_cons_of_mem _ hm))]

/-- Splitting distributes over a newline that joins two texts. -/
theorem splitLines_append_nl (xs ys : List Char) :
    splitLines (xs ++ '\n' :: ys) = splitLines xs ++ splitLines ys := by
  induction xs with
  | nil => simp [splitLines]
  | cons c rest ih =>
    rw [List.cons_append]
    by_cases hc : c = '\n'
    · subst hc
      rw [show splitLines ('\n' :: (rest ++ '\n' :: ys))
            = [] :: splitLines (rest ++ '\n' :: ys) from by simp [splitLines],
          show splitLines ('\n' :: rest) = [] :: splitLines rest from by simp [splitLines],
          ih, List.cons_append]
    · cases h : splitLines rest with
      | nil => exact absurd h (splitLines_ne_nil rest)
      | cons l ls =>
        rw [show splitLines (c :: (rest ++ '\n' :: ys))
              = (match splitLines (rest ++ '\n' :: ys) with
                 | [] => [[c]]
                 | l :: ls => (c :: l) :: ls) from by simp [splitLines, hc],
            ih, h,
            show splitLines (c :: rest) = (c :: l) :: ls from by simp [splitLines, hc, h]]
        simp

theorem splitLines_joinLines {ls : List (List Char)} (hne : ls ≠ [])
    (h : ∀ l ∈ ls, '\n' ∉ l) : splitLines (joinLines ls) = ls := by
  induction ls with
  | nil => exact absurd rfl hne
  | cons l ls ih =>
    cases ls with
    | nil => simpa [joinLines] using splitLines_of_no_nl (h l (by simp))
    | cons l' ls' =>
      have : joinLines (l :: l' :: ls') = l ++ '\n' :: joinLines (l' :: ls') := rfl
      rw [this, splitLines_append_nl, splitLines_of_no_nl (h l (by simp))]
      rw [ih (by simp) (fun x hx => h x (List.mem_cons_of_mem _ hx))]
      rfl

theorem joinLines_append {A B : List (List Char)} (hA : A ≠ []) (hB : B ≠ []) :
    joinLines (A ++ B) = joinLines A ++ '\n' :: joinLines B := by
  induction A with
  | nil => exact absurd rfl hA
  | cons l ls ih =>
    cases ls with
    | nil =>
      cases B with
      | nil => exact absurd rfl hB
      | cons b bs => simp [joinLines]
    | cons l' ls' =>
      have h1 : joinLines ((l :: l' :: ls') ++ B) = l ++ '\n' :: joinLines ((l' :: ls') ++ B) := rfl
      have h2 : joinLines (l :: l' :: ls') = l ++ '\n' :: joinLines (l' :: ls') := rfl
      rw [h1, h2, ih (by simp)]
      simp

/-- Consume a literal pattern fragment at the head of the input; return
the rest of the input on success. -/
def dropLit : List Char → List Char → Option (List Char)
  | [], rest => some rest
  | _ :: _, [] => none
  | p :: ps, c :: cs => if p = c then dropLit ps cs else none

/-- Consume `\s+` inside a line (greedy; correct here because every token
the source's patterns place after `\s+` starts with a non-space character,
so no backtracking into the consumed run is ever needed). -/
def dropWs1 (cs : List Char) : Option (List Char) :=
  match cs with
  | [] => none
  | c :: rest => if isPySpace c then some (rest.dropWhile isPySpace) else none

/-- Python's `needle in haystack` substring test on strings. -/
def isSubstr (needle hay : List Char) : Bool :=
  hay.tails.any (fun t => needle.isPrefixOf t)

theorem dropLit_some {p l r : List Char} (h : dropLit p l = some r) : l = p ++ r := by
  induction p generalizing l with
  | nil => simp [dropLit] at h; simp [h]
  | cons pc ps ih =>
    cases l with
    | nil => simp [dropLit] at h
    | cons c cs =>
      simp only [dropLit] at h
      split at h
      · rename_i hpc
        simp [hpc, ih h]
      · exact absurd h (by simp)

theorem dropWs1_some {l r : List Char} (h : dropWs1 l = some r) : ∃ w, l = w ++ r := by
  cases l with
  | nil => simp [dropWs1] at h
  | cons c cs =>
    simp only [dropWs1] at h
    split at h
    · refine ⟨c :: cs.takeWhile isPySpace, ?_⟩
      have := List.takeWhile_append_dropWhile (p := isPySpace) (l := cs)
      simp only [Option.some.injEq] at h
      rw [← h]
      simp [this]
    · exact absurd h (by simp)

theorem isSubstr_iff (needle hay : List Char) :
    isSubstr needle hay = true ↔ needle <:+: hay := by
  constructor
  · intro h
    rcases List.any_eq_true.mp h with ⟨t, ht, hpre⟩
    have h1 : needle <+: t := List.isPrefixOf_iff_prefix.mp hpre
    have h2 : t <:+ hay := (List.mem_tails t hay).mp ht
    exact h1.isInfix.trans h2.isInfix
  · intro h
    rcases List.infix_iff_prefix_suffix.mp h with ⟨t, h1, h2⟩
    exact List.any_eq_true.mpr ⟨t, (List.mem_tails t hay).mpr h2,
      List.isPrefixOf_iff_prefix.mpr h1⟩

/-- Every line produced by `splitLines` occurs inside the original text. -/
theorem mem_splitLines_infix_text {cs l : List Char} (h : l ∈ splitLines cs) : l <:+: cs := by
  induction cs generalizing l with
  | nil =>
    simp [splitLines] at h
    simp [h]
  | cons c rest ih =>
    simp only [splitLines] at h
    split at h
    · rename_i hc
      subst hc
      rcases List.mem_cons.mp h with h' | h'
      · simp [h']
      · exact (ih h').trans (List.infix_cons (List.infix_refl rest))
    · rename_i hc
      cases hs : splitLines rest with
      | nil => exact absurd hs (splitLines_ne_nil rest)
      | cons l0 ls0 =>
        rw [hs] at h
        rcases List.mem_cons.mp h with h' | h'
        · subst h'
          have hpre : l0 <+: rest := by
            have hj := joinLines_splitLines rest
            rw [hs] at hj
            cases ls0 with
            | nil => exact ⟨[], by simpa [joinLines] using hj⟩
            | cons a as => exact ⟨'\n' :: joinLines (a :: as), by simpa [joinLines] using hj⟩
          exact (List.prefix_cons_inj c |>.mpr hpre).isInfix
        · exact (ih (by simp [hs, h'])).trans (List.infix_cons (List.infix_refl rest))

/-! ## Cross-line regex matching

`\s` matches `'\n'`, so the `\s+` of `^LIT\s+...` may run across line
boundaries.  The run is maximal (greedy, and the token after it always
starts with a non-whitespace character, so backtracking into the run can
never succeed); it ends at the first non-whitespace character, which may
sit on a later line. -/

/-- Continue a whitespace run that has crossed a newline: skip whole
whitespace-only lines, and at the first line holding a non-whitespace
character hand the position of that character (and the lines after that
line) to the continuation `q`.  Returns `q`'s result with the count of
lines advanced added in; `none` when the run reaches the end of the text
without finding a non-whitespace character.  `q r rest` receives the line
suffix `r` starting at the first non-whitespace character and the lines
`rest` after the current line, and returns the number of FURTHER lines its
own match consumes, paired with a captured value. -/
def wsThenCont (q : List Char → List (List Char) → Option (Nat × α)) :
    List (List Char) → Option (Nat × α)
  | [] => none
  | L :: rest =>
    if L.all isPySpace then
      (wsThenCont q rest).map (fun p => (p.1 + 1, p.2))
    else
      (q (L.dropWhile isPySpace) rest).map (fun p => (p.1 + 1, p.2))

/-- Match `\s+` starting at line suffix `r` (the text right after the
literal), followed by the continuation `q` at the first non-whitespace
character; the run crosses into the following lines `rest` when `r` is all
whitespace.  Returns the number of lines advanced beyond the current line
paired with `q`'s captured value. -/
def wsThen (q : List Char → List (List Char) → Option (Nat × α))
    (r : List Char) (rest : List (List Char)) : Option (Nat × α) :=
  if r.all isPySpace then wsThenCont q rest
  else (dropWs1 r).bind (fun r2 => q r2 rest)

/-- Does a match of `^set\s+KEY.*$` start at the head line of `ls`?
Returns the total number of lines the match spans (its `.*$` ends the
match at the end of the line where `KEY` sits). -/
def matchSpanSet (key : List Char) (ls : List (List Char)) : Option Nat :=
  match ls with
  | [] => none
  | L :: rest =>
    ((dropLit "set".data L).bind (fun r1 =>
      wsThen (fun r2 _ => if key.isPrefixOf r2 then some (0, ()) else none) r1 rest)).map
      (fun p => p.1 + 1)

/-- A line that is exactly `set` followed by nothing but whitespace: the
only kind of line at which a match of `^set\s+KEY.*$` can cross into the
following lines. -/
def setDanglingLine (l : List Char) : Bool :=
  match dropLit "set".data l with
  | none => false
  | some r => r.all isPySpace

/-! ## CVar upsert (`ServerManager.update_cvars`, managers.py 557-582) -/

/-- Does a line match `^set\s+KEY.*$` (the pattern
`r"^set\s+%s.*$" % key` built at managers.py 576)?  Note the source puts
no word boundary after the key, so a line for a longer cvar name sharing
`key` as a prefix also matches. -/
def lineMatchesSetKey (key : List Char) (line : List Char) : Bool :=
  (((dropLit "set".data line).bind dropWs1).map (fun r2 => key.isPrefixOf r2)).getD false

/-- The canonical replacement line
`set KEY "VALUE" // cvar updated by etsm` (managers.py 573). -/
def cvarNewLine (key value : List Char) : List Char :=
  "set ".data ++ key ++ " \"".data ++ value ++ "\" // cvar updated by etsm".data

/-- The scan of `re.sub(r"^set\s+key.*$", repl, config, flags=re.M)` over
the line list: at each line start try a match; on a match spanning `n`
lines emit the replacement line and resume after the match, otherwise keep
the line and move on.  `fuel` bounds the recursion; every step consumes at
least one line, so `fuel = ls.length` never runs out (the fuel-exhausted
arm is unreachable). -/
def subScanSet (key repl : List Char) : Nat → List (List Char) → List (List Char)
  | 0, ls => ls
  | _ + 1, [] => []
  | fuel + 1, L :: rest =>
    match matchSpanSet key (L :: rest) with
    | some n => repl :: subScanSet key repl fuel (rest.drop (n - 1))
    | none => L :: subScanSet key repl fuel rest

/-- `re.sub(r"^set\s+key.*$", repl, text, flags=re.M)`: a match always
starts at a line start and ends at a line end, so the substitution maps
the line list and the separators are preserved. -/
def reSubSetKey (key repl text : List Char) : List Char :=
  joinLines (subScanSet key repl (splitLines text).length (splitLines text))

/-- One iteration of the `for key, value in new_values.items()` loop of
`update_cvars` (managers.py 571-580): a substring pre-check
`if key in config` selects between the `re.sub` of `^set\s+key.*$`
(multiline, cross-line `\s+` included) and a plain append of the canonical
line plus newline. -/
def updateCvarStep (config key value : List Char) : List Char :=
  let new_line := cvarNewLine key value
  if isSubstr key config then reSubSetKey key new_line config
  else config ++ new_line ++ ['\n']

/-- `ServerManager.update_cvars` on the text of an existing config file:
the dict of new values is iterated in insertion order (modelled as an
association list); the final write persists the accumulated text. -/
def update_cvars (config : List Char) : List (List Char × List Char) → List Char
  | [] => config
  | (key, value) :: rest => update_cvars (updateCvarStep config key value) rest

theorem lineMatchesSetKey_infix_line {key l : List Char}
    (h : lineMatchesSetKey key l = true) : key <:+: l := by
  cases h1 : dropLit "set".data l with
  | none => simp [lineMatchesSetKey, h1] at h
  | some r1 =>
    cases h2 : dropWs1 r1 with
    | none => simp [lineMatchesSetKey, h1, h2] at h
    | some r2 =>
      simp only [lineMatchesSetKey, h1, h2, Option.some_bind, Option.map_some',
        Option.getD_some] at h
      have hp : key <+: r2 := List.isPrefixOf_iff_prefix.mp h
      rcases hp with ⟨t, ht⟩
      rcases dropWs1_some h2 with ⟨w, hw⟩
      rw [dropLit_some h1, hw, ← ht]
      exact ⟨"set".data ++ w, t, by simp⟩

theorem isWordChar_not_space {c : Char} (h : isWordChar c = true) :
    isPySpace c = false := by
  by_contra hsp
  have hsp' : isPySpace c = true := by
    cases hb : isPySpace c
    · exact absurd hb hsp
    · rfl
  unfold isPySpace at hsp'
  simp only [Bool.or_eq_true, beq_iff_eq] at hsp'
  rcases hsp' with ((((h1 | h1) | h1) | h1) | h1) <;> subst h1 <;> simp [isWordChar] at h

theorem dropLit_set_space (t : List Char) :
    dropLit "set".data ("set ".data ++ t) = some (' ' :: t) := rfl

theorem dropLit_set_chars (t : List Char) :
    dropLit ['s', 'e', 't'] ('s' :: 'e' :: 't' :: t) = some t := rfl

theorem dropWs1_space (t : List Char) :
    dropWs1 (' ' :: t) = some (t.dropWhile isPySpace) := rfl

/-- The canonical line itself matches the pattern it was substituted for
(`key` a nonempty word-character name). -/
theorem lineMatchesSetKey_cvarNewLine {key : List Char} (value : List Char)
    (hne : key ≠ []) (hword : ∀ c ∈ key, isWordChar c = true) :
    lineMatchesSetKey key (cvarNewLine key value) = true := by
  cases key with
  | nil => exact absurd rfl hne
  | cons k ks =>
    have hk : isPySpace k = false := isWordChar_not_space (hword k (by simp))
    have hdw : ∀ t : List Char, List.dropWhile isPySpace (k :: t) = k :: t := by
      intro t
      rw [List.dropWhile_cons]
      simp [hk]
    unfold cvarNewLine
    simp only [lineMatchesSetKey, List.append_assoc, List.cons_append, List.nil_append,
      dropLit_set_chars, dropWs1_space, Option.some_bind, Option.map_some',
      Option.getD_some, hdw]
    refine List.isPrefixOf_iff_prefix.mpr
      ⟨" \"".data ++ value ++ "\" // cvar updated by etsm".data, ?_⟩
    simp

theorem cvarNewLine_no_nl {key value : List Char}
    (hword : ∀ c ∈ key, isWordChar c = true) (hv : '\n' ∉ value) :
    '\n' ∉ cvarNewLine key value := by
  intro hmem
  unfold cvarNewLine at hmem
  simp only [List.mem_append] at hmem
  rcases hmem with (((h | h) | h) | h) | h
  · simp [String.data] at h
  · have := hword _ h
    simp [isWordChar] at this
  · simp [String.data] at h
  · exact hv h
  · simp [String.data] at h

theorem lineMatchesSetKey_nil (key : List Char) :
    lineMatchesSetKey key [] = false := rfl

theorem key_infix_cvarNewLine (key value : List Char) : key <:+: cvarNewLine key value :=
  ⟨"set ".data, " \"".data ++ value ++ "\" // cvar updated by etsm".data, by
    simp [cvarNewLine]⟩

theorem update_cvars_singleton (config key value : List Char) :
    update_cvars config [(key, value)] = updateCvarStep config key value := rfl

theorem updateCvarStep_of_not_substr {config key : List Char} (value : List Char)
    (h : isSubstr key config = false) :
    updateCvarStep config key value = config ++ cvarNewLine key value ++ ['\n'] := by
  simp [updateCvarStep, h]

/-- The effect of the `re.sub` substitution on one line. -/
def subLine (key value : List Char) (l : List Char) : List Char :=
  if lineMatchesSetKey key l then cvarNewLine key value else l

/-- On a line that is not a dangling `set`, a match of `^set\s+key.*$`
starting there cannot cross the newline: it spans exactly one line and
coincides with the within-line matcher. -/
theorem matchSpanSet_of_not_dangling {key L : List Char} (rest : List (List Char))
    (h : setDanglingLine L = false) :
    matchSpanSet key (L :: rest) = if lineMatchesSetKey key L then some 1 else none := by
  cases h1 : dropLit "set".data L with
  | none => simp [matchSpanSet, lineMatchesSetKey, h1]
  | some r1 =>
    have hws : r1.all isPySpace = false := by
      simpa only [setDanglingLine, h1] using h
    have hws2 : ¬ ∀ x ∈ r1, isPySpace x = true := by
      intro hall
      have hat : r1.all isPySpace = true := List.all_eq_true.mpr hall
      rw [hws] at hat
      exact absurd hat (by simp)
    cases h2 : dropWs1 r1 with
    | none => simp [matchSpanSet, lineMatchesSetKey, wsThen, h1, hws, hws2, h2]
    | some r2 =>
      cases hp : key.isPrefixOf r2 with
      | false =>
        simp [matchSpanSet, lineMatchesSetKey, wsThen, h1, hws, hws2, h2, hp]
        intro hc
        rw [List.isPrefixOf_iff_prefix.mpr hc] at hp
        exact absurd hp (by simp)
      | true =>
        simp [matchSpanSet, lineMatchesSetKey, wsThen, h1, hws, hws2, h2, hp]
        exact List.isPrefixOf_iff_prefix.mp hp

/-- On a text without dangling `set` lines the substitution scan degenerates
to a per-line map: each line matching `^set\s+key` becomes the replacement,
every other line is kept. -/
theorem subScanSet_eq_map {key repl : List Char} (fuel : Nat) :
    ∀ ls : List (List Char), ls.length ≤ fuel →
      (∀ l ∈ ls, setDanglingLine l = false) →
      subScanSet key repl fuel ls
        = ls.map (fun l => if lineMatchesSetKey key l then repl else l) := by
  induction fuel with
  | zero =>
    intro ls hle _
    cases ls with
    | nil => rfl
    | cons L rest => simp at hle
  | succ fuel ih =>
    intro ls hle hnd
    cases ls with
    | nil => rfl
    | cons L rest =>
      have hle' : rest.length ≤ fuel := Nat.le_of_succ_le_succ hle
      have hnd' : ∀ l ∈ rest, setDanglingLine l = false :=
        fun l hl => hnd l (List.mem_cons_of_mem _ hl)
      rw [show subScanSet key repl (fuel + 1) (L :: rest)
            = (match matchSpanSet key (L :: rest) with
               | some n => repl :: subScanSet key repl fuel (rest.drop (n - 1))
               | none => L :: subScanSet key repl fuel rest) from rfl]
      rw [matchSpanSet_of_not_dangling rest (hnd L (by simp))]
      by_cases hm : lineMatchesSetKey key L = true
      · rw [if_pos hm]
        show repl :: subScanSet key repl fuel rest = _
        rw [ih rest hle' hnd']
        simp [hm]
      · rw [if_neg hm]
        show L :: subScanSet key repl fuel rest = _
        rw [ih rest hle' hnd']
        simp only [List.map_cons]
        rw [if_neg hm]

theorem updateCvarStep_of_substr {config key : List Char} (value : List Char)
    (h : isSubstr key config = true)
    (hnd : ∀ l ∈ splitLines config, setDanglingLine l = false) :
    updateCvarStep config key value
      = joinLines ((splitLines config).map (subLine key value)) := by
  simp only [updateCvarStep, h, if_true]
  unfold reSubSetKey
  rw [subScanSet_eq_map (splitLines config).length (splitLines config) le_rfl hnd]
  rfl

/-- If the name does not occur as a substring of the text, no line of the
text can match the `^set\s+name` pattern. -/
theorem no_line_matches_of_not_substr {key config : List Char}
    (h : isSubstr key config = false) :
    ∀ l ∈ splitLines config, lineMatchesSetKey key l = false := by
  intro l hl
  cases hm : lineMatchesSetKey key l with
  | false => rfl
  | true =>
    have : key <:+: config := (lineMatchesSetKey_infix_line hm).trans (mem_splitLines_infix_text hl)
    rw [(isSubstr_iff key config).mpr this] at h
    exact absurd h (by simp)

/-- The lines of the file after one upsert, for the substituting branch:
each matching line becomes the canonical line, all other lines are kept. -/
theorem setDanglingLine_nil : setDanglingLine [] = false := rfl

/-- The canonical line is never a dangling `set` line: the key follows the
space after `set` immediately. -/
theorem cvarNewLine_not_dangling {key : List Char} (value : List Char)
    (hne : key ≠ []) (hword : ∀ c ∈ key, isWordChar c = true) :
    setDanglingLine (cvarNewLine key value) = false := by
  cases key with
  | nil => exact absurd rfl hne
  | cons k ks =>
    have hk : isPySpace k = false := isWordChar_not_space (hword k (by simp))
    unfold cvarNewLine setDanglingLine
    simp only [List.append_assoc, List.cons_append, List.nil_append, dropLit_set_chars]
    simp [hk]

theorem splitLines_updateCvarStep_of_substr {config key value : List Char}
    (hword : ∀ c ∈ key, isWordChar c = true) (hv : '\n' ∉ value)
    (h : isSubstr key config = true)
    (hnd : ∀ l ∈ splitLines config, setDanglingLine l = false) :
    splitLines (updateCvarStep config key value)
      = (splitLines config).map (subLine key value) := by
  rw [updateCvarStep_of_substr value h hnd]
  refine splitLines_joinLines ?_ ?_
  · simp [splitLines_ne_nil config]
  · intro l hl
    rcases List.mem_map.mp hl with ⟨a, ha, hfa⟩
    by_cases hm : lineMatchesSetKey key a = true
    · rw [← hfa, subLine, if_pos hm]
      exact cvarNewLine_no_nl hword hv
    · rw [← hfa, subLine, if_neg hm]
      exact mem_splitLines_no_nl ha

/-- The normalization property claimed for a double upsert: the second
application is the identity, and the resulting file has at least one line
matching `^set\s+key` with every such line equal to the canonical line. -/
def upsertTwiceNormalizes (config key value : List Char) : Prop :=
  update_cvars (update_cvars config [(key, value)]) [(key, value)]
      = update_cvars config [(key, value)]
  ∧ (splitLines (update_cvars config [(key, value)])).filter (lineMatchesSetKey key) ≠ []
  ∧ ∀ l ∈ (splitLines (update_cvars config [(key, value)])).filter (lineMatchesSetKey key),
      l = cvarNewLine key value

/-- After an upsert on a file whose text never mentions the key, the lines
decompose as untouched non-matching lines, the canonical line, then the
empty tail line. -/
theorem append_branch_line_structure {config key value : List Char}
    (hword : ∀ c ∈ key, isWordChar c = true) (hv : '\n' ∉ value)
    (hterm : config = [] ∨ config.getLast? = some '\n')
    (hsub : isSubstr key config = false) :
    ∃ S, splitLines (config ++ cvarNewLine key value ++ ['\n'])
        = S ++ [cvarNewLine key value, []]
      ∧ (∀ l ∈ S, lineMatchesSetKey key l = false)
      ∧ (∀ l ∈ S, '\n' ∉ l)
      ∧ (∀ l ∈ S, l ∈ splitLines config) := by
  have hcnl : '\n' ∉ cvarNewLine key value := cvarNewLine_no_nl hword hv
  rcases hterm with hc | hc
  · refine ⟨[], ?_, by simp, by simp, by simp⟩
    subst hc
    rw [show ([] : List Char) ++ cvarNewLine key value ++ ['\n']
          = cvarNewLine key value ++ '\n' :: [] from by simp,
        splitLines_append_nl, splitLines_of_no_nl hcnl]
    rfl
  · have hne' : config ≠ [] := by
      intro h
      rw [h] at hc
      simp at hc
    have hsplit : config = config.dropLast ++ ['\n'] := by
      have h1 := List.dropLast_append_getLast hne'
      have h2 : config.getLast hne' = '\n' := by
        have h3 := List.getLast?_eq_getLast config hne'
        rw [h3] at hc
        exact Option.some.inj hc
      rw [h2] at h1
      exact h1.symm
    refine ⟨splitLines config.dropLast, ?_, ?_, ?_, ?_⟩
    · conv_lhs => rw [hsplit]
      rw [show (config.dropLast ++ ['\n']) ++ cvarNewLine key value ++ ['\n']
            = config.dropLast ++ '\n' :: (cvarNewLine key value ++ '\n' :: []) from by simp,
          splitLines_append_nl, splitLines_append_nl, splitLines_of_no_nl hcnl]
      rfl
    · intro l hl
      cases hm : lineMatchesSetKey key l with
      | false => rfl
      | true =>
        have h1 : key <:+: config :=
          ((lineMatchesSetKey_infix_line hm).trans (mem_splitLines_infix_text hl)).trans
            (List.dropLast_prefix config).isInfix
        rw [(isSubstr_iff key config).mpr h1] at hsub
        exact absurd hsub (by simp)
    · intro l hl
      exact mem_splitLines_no_nl hl
    · intro l hl
      have hsc : splitLines config = splitLines config.dropLast ++ [[]] := by
        conv_lhs => rw [hsplit]
        rw [show config.dropLast ++ ['\n'] = config.dropLast ++ '\n' :: [] from rfl,
          splitLines_append_nl]
        rfl
      rw [hsc]
      exact List.mem_append_left _ hl

/-- C1, amended.  Upserting the cvar `key := value` twice on a config text
that is empty or newline-terminated and has no dangling `set` line (a line
that is `set` followed by only whitespace, at which a match of
`^set\s+key.*$` would cross the newline), provided the key either occurs
on a line matching `^set\s+key` or does not occur in the text at all,
produces a file whose lines matching `^set\s+key` are exactly occurrences
of the single canonical line `set key "value" // cvar updated by etsm` (at
least one is present), and the second upsert leaves the file unchanged.
(The claim as frozen fails without the occurrence proviso: a file that
mentions the key only inside a comment defeats the substring pre-check,
see the counterexample.) -/
theorem update_cvars_twice_normalizes
    (config key value : List Char)
    (hne : key ≠ []) (hword : ∀ c ∈ key, isWordChar c = true)
    (hv : '\n' ∉ value) (_hbs : '\\' ∉ value)
    (hterm : config = [] ∨ config.getLast? = some '\n')
    (hnd : ∀ l ∈ splitLines config, setDanglingLine l = false)
    (hmain : isSubstr key config = false
      ∨ ∃ l ∈ splitLines config, lineMatchesSetKey key l = true) :
    upsertTwiceNormalizes config key value := by
  have hcm : lineMatchesSetKey key (cvarNewLine key value) = true :=
    lineMatchesSetKey_cvarNewLine value hne hword
  rcases hmain with hsub | ⟨l0, hl0, hl0m⟩
  · -- append branch: the key is nowhere in the text
    have honce : update_cvars config [(key, value)]
        = config ++ cvarNewLine key value ++ ['\n'] := by
      rw [update_cvars_singleton, updateCvarStep_of_not_substr value hsub]
    obtain ⟨S, hS, hSnm, hSnl, hSmem⟩ := append_branch_line_structure hword hv hterm hsub
    have hsub2 : isSubstr key (config ++ cvarNewLine key value ++ ['\n']) = true := by
      refine (isSubstr_iff _ _).mpr ?_
      exact (key_infix_cvarNewLine key value).trans ⟨config, ['\n'], by simp⟩
    have hmapfix : (S ++ [cvarNewLine key value, []]).map (subLine key value)
        = S ++ [cvarNewLine key value, []] := by
      rw [List.map_append]
      congr 1
      · refine List.map_congr_left ?_ |>.trans (List.map_id S)
        intro a ha
        simp [subLine, hSnm a ha]
      · simp [subLine, hcm, lineMatchesSetKey_nil]
    have hndOnce : ∀ l ∈ splitLines (config ++ cvarNewLine key value ++ ['\n']),
        setDanglingLine l = false := by
      rw [hS]
      intro l hl
      rcases List.mem_append.mp hl with h' | h'
      · exact hnd l (hSmem l h')
      · rcases List.mem_cons.mp h' with h'' | h''
        · rw [h'']
          exact cvarNewLine_not_dangling value hne hword
        · rcases List.mem_cons.mp h'' with h3 | h3
          · rw [h3]
            rfl
          · simp at h3
    refine ⟨?_, ?_, ?_⟩
    · rw [honce, update_cvars_singleton, updateCvarStep_of_substr value hsub2 hndOnce,
        hS, hmapfix, ← hS, joinLines_splitLines]
    · rw [honce, hS, List.filter_append]
      rw [List.filter_eq_nil_iff.mpr (fun a ha => by simp [hSnm a ha])]
      simp [hcm, lineMatchesSetKey_nil]
    · intro l hl
      rw [honce, hS, List.filter_append] at hl
      rw [List.filter_eq_nil_iff.mpr (fun a ha => by simp [hSnm a ha])] at hl
      simp only [List.nil_append] at hl
      have := List.mem_filter.mp hl
      rcases List.mem_cons.mp this.1 with h' | h'
      · exact h'
      · rcases List.mem_cons.mp h' with h'' | h''
        · rw [h''] at this
          rw [lineMatchesSetKey_nil] at this
          exact absurd this.2 (by simp)
        · simp at h''
  · -- substitution branch: some line of the file matches the pattern
    have hsub : isSubstr key config = true := (isSubstr_iff _ _).mpr
      ((lineMatchesSetKey_infix_line hl0m).trans (mem_splitLines_infix_text hl0))
    have hsplitonce : splitLines (update_cvars config [(key, value)])
        = (splitLines config).map (subLine key value) := by
      rw [update_cvars_singleton]
      exact splitLines_updateCvarStep_of_substr hword hv hsub hnd
    have hcmem : cvarNewLine key value ∈ (splitLines config).map (subLine key value) :=
      List.mem_map.mpr ⟨l0, hl0, by simp [subLine, hl0m]⟩
    have hsub2 : isSubstr key (update_cvars config [(key, value)]) = true := by
      refine (isSubstr_iff _ _).mpr ?_
      refine (key_infix_cvarNewLine key value).trans (mem_splitLines_infix_text ?_)
      rw [hsplitonce]
      exact hcmem
    have hndOnce : ∀ l ∈ splitLines (update_cvars config [(key, value)]),
        setDanglingLine l = false := by
      rw [hsplitonce]
      intro l hl
      rcases List.mem_map.mp hl with ⟨a, ha, hfa⟩
      by_cases hm : lineMatchesSetKey key a = true
      · rw [← hfa]
        simp only [subLine, if_pos hm]
        exact cvarNewLine_not_dangling value hne hword
      · rw [← hfa]
        simp only [subLine, if_neg hm]
        exact hnd a ha
    refine ⟨?_, ?_, ?_⟩
    · rw [update_cvars_singleton (update_cvars config [(key, value)]),
        updateCvarStep_of_substr value hsub2 hndOnce, hsplitonce, List.map_map]
      have hidem : (splitLines config).map (subLine key value ∘ subLine key value)
          = (splitLines config).map (subLine key value) := by
        refine List.map_congr_left ?_
        intro a ha
        by_cases hm : lineMatchesSetKey key a = true
        · simp [subLine, hm, hcm]
        · simp [subLine, hm]
      rw [hidem, update_cvars_singleton, updateCvarStep_of_substr value hsub hnd]
    · rw [hsplitonce]
      exact List.ne_nil_of_mem (List.mem_filter.mpr ⟨hcmem, hcm⟩)
    · rw [hsplitonce]
      intro l hl
      have hmf := List.mem_filter.mp hl
      rcases List.mem_map.mp hmf.1 with ⟨a, ha, hfa⟩
      by_cases hm : lineMatchesSetKey key a = true
      · rw [← hfa]
        simp [subLine, hm]
      · have : l = a := by rw [← hfa]; simp [subLine, hm]
        rw [this] at hmf
        exact absurd hmf.2 hm

/-- C1, counterexample to the claim as frozen.  On the file `"// x\n"`,
whose text mentions the cvar name `x` only inside a comment, upserting
`x := 1` twice leaves the file unchanged and the result contains no line
matching `^set\s+x` at all — not the claimed exactly one effective
`set x "1"` line. -/
theorem update_cvars_twice_comment_only_no_set_line :
    update_cvars (update_cvars "// x\n".data [("x".data, "1".data)])
        [("x".data, "1".data)] = "// x\n".data
    ∧ (splitLines (update_cvars (update_cvars "// x\n".data [("x".data, "1".data)])
        [("x".data, "1".data)])).filter (lineMatchesSetKey "x".data) = [] := by
  decide

/-- Witness for the amended C1 theorem at a concrete dirty duplicate-key
file: two conflicting `set x` lines collapse and the second upsert is the
identity. -/
theorem update_cvars_twice_normalizes_witness :
    upsertTwiceNormalizes "set x \"0\"\nset x \"9\"\n".data "x".data "1".data :=
  update_cvars_twice_normalizes "set x \"0\"\nset x \"9\"\n".data "x".data "1".data
    (by decide) (by decide) (by decide) (by decide) (by decide) (by decide) (by decide)

/-- C2, amended.  One upsert of `key := value`, on a text with no dangling
`set` line (a line that is `set` followed by only whitespace, at which a
match would cross the newline), behaves as follows: when the name does not
occur as a substring anywhere in the text, the canonical line is appended;
when it does occur, every line matching `^set\s+key` (no word boundary) is
replaced by the canonical line and the other lines are kept — in
particular, when the name occurs only outside `set key` lines (e.g. in a
comment or inside another value) nothing is appended and the file is left
unchanged, contrary to the claim as frozen. -/
theorem update_cvars_single_upsert_characterization
    (config key value : List Char)
    (hword : ∀ c ∈ key, isWordChar c = true) (hv : '\n' ∉ value)
    (hnd : ∀ l ∈ splitLines config, setDanglingLine l = false) :
    (isSubstr key config = false →
      update_cvars config [(key, value)] = config ++ cvarNewLine key value ++ ['\n'])
    ∧ (isSubstr key config = true →
      splitLines (update_cvars config [(key, value)])
        = (splitLines config).map (subLine key value))
    ∧ (isSubstr key config = true →
      (∀ l ∈ splitLines config, lineMatchesSetKey key l = false) →
      update_cvars config [(key, value)] = config) := by
  refine ⟨?_, ?_, ?_⟩
  · intro h
    rw [update_cvars_singleton, updateCvarStep_of_not_substr value h]
  · intro h
    rw [update_cvars_singleton]
    exact splitLines_updateCvarStep_of_substr hword hv h hnd
  · intro h hnm
    rw [update_cvars_singleton, updateCvarStep_of_substr value h hnd]
    have : (splitLines config).map (subLine key value) = splitLines config := by
      refine (List.map_congr_left ?_).trans (List.map_id _)
      intro a ha
      simp [subLine, hnm a ha]
    rw [this, joinLines_splitLines]

/-- C2, counterexample to the claim as frozen.  On the file `"// x\n"` no
line matches `^set\s+x` (with or without a word boundary), so the claim
requires the canonical line to be appended; the code's substring pre-check
fires on the comment mention instead and the upsert leaves the file
unchanged. -/
theorem update_cvars_comment_mention_not_appended :
    ((splitLines "// x\n".data).all (fun l => !lineMatchesSetKey "x".data l)) = true
    ∧ update_cvars "// x\n".data [("x".data, "1".data)] = "// x\n".data
    ∧ update_cvars "// x\n".data [("x".data, "1".data)]
        ≠ "// x\n".data ++ cvarNewLine "x".data "1".data ++ ['\n'] := by
  decide

/-- Witness for the amended C2 theorem on a file where the name occurs only
in a comment: the upsert is the identity and appends nothing. -/
theorem update_cvars_single_upsert_characterization_witness :
    isSubstr "x".data "// x\n".data = true
    ∧ update_cvars "// x\n".data [("x".data, "1".data)] = "// x\n".data :=
  ⟨by decide,
    (update_cvars_single_upsert_characterization "// x\n".data "x".data "1".data
      (by decide) (by decide) (by decide)).2.2 (by decide) (by decide)⟩

/-! ## Exec lines (`ServerManager.add_exec`, managers.py 611-633) -/

/-- Does a line match `^exec\s+\w+.*$` (managers.py 627)?  The exec target
name in the line is irrelevant: any exec line matches. -/
def execLineAny (line : List Char) : Bool :=
  (((dropLit "exec".data line).bind dropWs1).map
    (fun r2 => (r2.head?.map isWordChar).getD false)).getD false

/-- Does a match of `^exec\s+\w+.*$` start at the head line of `ls`?  The
`\s+` run may cross newlines; the match requires a word character at the
first non-whitespace position after it.  Returns the number of lines the
match spans. -/
def matchSpanExec (ls : List (List Char)) : Option Nat :=
  match ls with
  | [] => none
  | L :: rest =>
    ((dropLit "exec".data L).bind (fun r1 =>
      wsThen (fun r2 _ =>
        if (r2.head?.map isWordChar).getD false then some (0, ()) else none) r1 rest)).map
      (fun p => p.1 + 1)

/-- Does `re.findall(r"^exec\s+\w+.*$", ..., re.M)` find at least one
match?  The scan tries each line start in order; finding any match decides
`len(matches) > 0`. -/
def execFindScan : Nat → List (List Char) → Bool
  | 0, _ => false
  | _ + 1, [] => false
  | fuel + 1, L :: rest =>
    match matchSpanExec (L :: rest) with
    | some _ => true
    | none => execFindScan fuel rest

/-- `ServerManager.add_exec` on the text of an existing config file:
`re.findall` collects every match of `^exec\s+\w+.*$` (multiline,
cross-line `\s+` included); when any exists the function logs and returns
without writing, otherwise it appends `exec NAME // exec added by etsm\n`
and writes the file. -/
def add_exec (config exec_name : List Char) : List Char :=
  let new_line := "exec ".data ++ exec_name ++ " // exec added by etsm\n".data
  if execFindScan (splitLines config).length (splitLines config) then config
  else config ++ new_line

/-- A truthy Bool under `all` cannot coexist with a `false` evaluation. -/
theorem not_all_ws_prop {r : List Char} (h : r.all isPySpace = false) :
    ¬ ∀ x ∈ r, isPySpace x = true := by
  intro hall
  have hat : r.all isPySpace = true := List.all_eq_true.mpr hall
  rw [h] at hat
  exact absurd hat (by simp)

/-- When `\s+` consumption leaves a nonempty remainder, the consumed text
was not all whitespace. -/
theorem dropWs1_some_not_all_ws {r1 r2 : List Char} (h : dropWs1 r1 = some r2)
    (hne : r2 ≠ []) : r1.all isPySpace = false := by
  cases r1 with
  | nil => simp [dropWs1] at h
  | cons c t =>
    simp only [dropWs1] at h
    split at h
    · rename_i hc
      cases hall : (c :: t).all isPySpace with
      | false => rfl
      | true =>
        have ht : ∀ x ∈ t, isPySpace x = true := by
          intro x hx
          exact List.all_eq_true.mp hall x (List.mem_cons_of_mem _ hx)
        have hdw : t.dropWhile isPySpace = [] := by
          rw [List.dropWhile_eq_nil_iff]
          intro x hx
          exact ht x hx
        rw [hdw] at h
        exact absurd (Option.some.inj h) (fun he => hne he.symm)
    · exact absurd h (by simp)

/-- A within-line exec match induces a span-1 match of the cross-line
scanner. -/
theorem execLineAny_matchSpan {L : List Char} (rest : List (List Char))
    (h : execLineAny L = true) : matchSpanExec (L :: rest) = some 1 := by
  unfold execLineAny at h
  cases h1 : dropLit "exec".data L with
  | none => rw [h1] at h; simp at h
  | some r1 =>
    rw [h1] at h
    simp only [Option.some_bind] at h
    cases h2 : dropWs1 r1 with
    | none => rw [h2] at h; simp at h
    | some r2 =>
      rw [h2] at h
      have hb : (r2.head?.map isWordChar).getD false = true := by simpa using h
      have hne2 : r2 ≠ [] := by
        intro he
        rw [he] at hb
        simp at hb
      have hws := not_all_ws_prop (dropWs1_some_not_all_ws h2 hne2)
      simp [matchSpanExec, wsThen, h1, hws, h2, hb]

theorem execFindScan_of_exists :
    ∀ (fuel : Nat) (ls : List (List Char)), ls.length ≤ fuel →
      (∃ l ∈ ls, execLineAny l = true) → execFindScan fuel ls = true := by
  intro fuel
  induction fuel with
  | zero =>
    intro ls hle hex
    cases ls with
    | nil => simp at hex
    | cons L rest => simp at hle
  | succ fuel ih =>
    intro ls hle hex
    cases ls with
    | nil => simp at hex
    | cons L rest =>
      cases hm : matchSpanExec (L :: rest) with
      | some n => simp [execFindScan, hm]
      | none =>
        rcases hex with ⟨l, hl, hml⟩
        rcases List.mem_cons.mp hl with h' | h'
        · rw [h'] at hml
          rw [execLineAny_matchSpan rest hml] at hm
          exact absurd hm (by simp)
        · rw [show execFindScan (fuel + 1) (L :: rest) = execFindScan fuel rest from by
            simp [execFindScan, hm]]
          exact ih rest (Nat.le_of_succ_le_succ hle) ⟨l, h', hml⟩

theorem execFindScan_of_none :
    ∀ (fuel : Nat) (ls : List (List Char)),
      (∀ i < ls.length, matchSpanExec (ls.drop i) = none) →
      execFindScan fuel ls = false := by
  intro fuel
  induction fuel with
  | zero =>
    intro ls _
    cases ls <;> rfl
  | succ fuel ih =>
    intro ls h
    cases ls with
    | nil => rfl
    | cons L rest =>
      have h0 : matchSpanExec (L :: rest) = none := h 0 (by simp)
      rw [show execFindScan (fuel + 1) (L :: rest) = execFindScan fuel rest from by
        simp [execFindScan, h0]]
      refine ih rest ?_
      intro i hi
      have := h (i + 1) (by simpa using Nat.succ_lt_succ hi)
      simpa [List.drop_succ_cons] using this

/-- C3, amended.  For an existing config file: when some line matches
`^exec\s+\w+` — whatever exec target it names — `add_exec` leaves the text
byte-for-byte unchanged; when the file holds no match of the pattern at
all (the multiline `\s+` may place `exec` and its target on different
lines, so this is stronger than no single line matching), it appends
exactly `exec NAME // exec added by etsm` followed by a newline. -/
theorem add_exec_at_most_one_exec_line (config ename : List Char) :
    ((∃ l ∈ splitLines config, execLineAny l = true) → add_exec config ename = config)
    ∧ ((∀ i < (splitLines config).length,
        matchSpanExec ((splitLines config).drop i) = none) →
      add_exec config ename
        = config ++ ("exec ".data ++ ename ++ " // exec added by etsm\n".data)) := by
  constructor
  · intro hex
    have hfound := execFindScan_of_exists (splitLines config).length (splitLines config)
      le_rfl hex
    simp [add_exec, hfound]
  · intro h
    have hfound := execFindScan_of_none (splitLines config).length (splitLines config) h
    simp [add_exec, hfound]

/-- C3, counterexample to the claim as frozen.  On the file `"exec\nfoo\n"`
no single line matches `^exec\s+\w+`, so the claim requires the canonical
exec line to be appended; but the source's `re.findall` matches the
cross-line region `exec\nfoo` (its `\s+` consumes the newline), so the
code returns without writing and the file is left unchanged. -/
theorem add_exec_cross_line_no_append :
    ((splitLines "exec\nfoo\n".data).all (fun l => !execLineAny l)) = true
    ∧ add_exec "exec\nfoo\n".data "bar".data = "exec\nfoo\n".data
    ∧ add_exec "exec\nfoo\n".data "bar".data
        ≠ "exec\nfoo\n".data
          ++ ("exec ".data ++ "bar".data ++ " // exec added by etsm\n".data) := by
  decide

/-- Witness for C3 on a file that already holds an exec line for a
different target: adding an exec is a no-op. -/
theorem add_exec_at_most_one_exec_line_witness :
    add_exec "exec other // comment\n".data "newname".data
      = "exec other // comment\n".data :=
  (add_exec_at_most_one_exec_line "exec other // comment\n".data "newname".data).1
    (by decide)

/-! ## CVar query (`ServerManager.get_cvar`, managers.py 529-536) -/

/-- The greedy group `(.*)` of `"(.*)".*$`: everything up to the last `'"'`
of the rest of the line, or no match when no closing quote exists. -/
def lastQuoteGroup : List Char → Option (List Char)
  | [] => none
  | c :: rest =>
    match lastQuoteGroup rest with
    | some g => some (c :: g)
    | none => if c = '"' then some [] else none

/-- The tail of the pattern, `"(.*)".*$`, at a position inside the final
line of a match: an opening quote, then the greedy group up to the last
quote of the line. -/
def quoteGroupAt (r : List Char) : Option (List Char) :=
  match r with
  | '"' :: rest => lastQuoteGroup rest
  | _ => none

/-- Match one line, in isolation, against `^set\s+CVAR\s+"(.*)".*$` (the
pattern `r'^set\s+%s\s+"(.*)".*$' % cvar` of managers.py 531) and return
the captured group: the within-line form of the pattern, i.e. a line of
the form `set CVAR "VALUE"`. -/
def cvarValue (cvar : List Char) (line : List Char) : Option (List Char) :=
  ((dropLit "set".data line).bind dropWs1).bind (fun r2 =>
    (dropLit cvar r2).bind (fun r3 =>
      (dropWs1 r3).bind quoteGroupAt))

/-- Does a match of `^set\s+CVAR\s+"(.*)".*$` start at the head line of
`ls`?  Both `\s+` runs may cross newlines.  Returns the number of lines
the match spans paired with the captured group. -/
def matchSpanCvar (key : List Char) (ls : List (List Char)) :
    Option (Nat × List Char) :=
  match ls with
  | [] => none
  | L :: rest =>
    ((dropLit "set".data L).bind (fun r1 =>
      wsThen (fun r2 rest2 =>
        if key.isPrefixOf r2 then
          wsThen (fun r4 _ => (quoteGroupAt r4).map (fun g => (0, g)))
            (r2.drop key.length) rest2
        else none) r1 rest)).map (fun p => (p.1 + 1, p.2))

/-- The scan of `re.findall(r'^set\s+%s\s+"(.*)".*$' % cvar, ..., re.M)`:
the captured groups of the matches in scan order. -/
def cvarFindScan (key : List Char) : Nat → List (List Char) → List (List Char)
  | 0, _ => []
  | _ + 1, [] => []
  | fuel + 1, L :: rest =>
    match matchSpanCvar key (L :: rest) with
    | some (n, g) => g :: cvarFindScan key fuel (rest.drop (n - 1))
    | none => cvarFindScan key fuel rest

/-- `ServerManager.get_cvar` on the text of an existing config file:
`re.findall` collects the captured values of every match (cross-line
`\s+` included) in scan order and the function returns `matches[-1]`, or
`None` (with a warning) when there is no match. -/
def get_cvar (config cvar : List Char) : Option (List Char) :=
  (cvarFindScan cvar (splitLines config).length (splitLines config)).getLast?

theorem dropLit_of_prefixMatch {p l : List Char} (h : p.isPrefixOf l = true) :
    dropLit p l = some (l.drop p.length) := by
  induction p generalizing l with
  | nil => simp [dropLit]
  | cons pc ps ih =>
    cases l with
    | nil => simp [List.isPrefixOf] at h
    | cons c cs =>
      simp only [List.isPrefixOf, Bool.and_eq_true, beq_iff_eq] at h
      simp [dropLit, h.1, ih h.2]

/-- A within-line cvar match induces a span-1 match of the cross-line
scanner with the same captured group. -/
theorem cvarValue_matchSpan {key L g : List Char} (rest : List (List Char))
    (h : cvarValue key L = some g) : matchSpanCvar key (L :: rest) = some (1, g) := by
  unfold cvarValue at h
  cases h1 : dropLit "set".data L with
  | none => rw [h1] at h; simp at h
  | some r1 =>
    rw [h1] at h
    simp only [Option.some_bind] at h
    cases h2 : dropWs1 r1 with
    | none => rw [h2] at h; simp at h
    | some r2 =>
      rw [h2] at h
      simp only [Option.some_bind] at h
      cases h3 : dropLit key r2 with
      | none => rw [h3] at h; simp at h
      | some r3 =>
        rw [h3] at h
        simp only [Option.some_bind] at h
        cases h4 : dropWs1 r3 with
        | none => rw [h4] at h; simp at h
        | some r4 =>
          rw [h4] at h
          simp only [Option.some_bind] at h
          have hr3ne : r3 ≠ [] := by
            intro he
            rw [he] at h4
            simp [dropWs1] at h4
          have hr4ne : r4 ≠ [] := by
            intro he
            rw [he] at h
            simp [quoteGroupAt] at h
          have hr2ne : r2 ≠ [] := by
            intro he
            rw [dropLit_some h3] at he
            exact hr3ne (List.append_eq_nil.mp he).2
          have hws1 := not_all_ws_prop (dropWs1_some_not_all_ws h2 hr2ne)
          have hws3 := not_all_ws_prop (dropWs1_some_not_all_ws h4 hr4ne)
          have hpre : key.isPrefixOf r2 = true :=
            List.isPrefixOf_iff_prefix.mpr ⟨r3, (dropLit_some h3).symm⟩
          have hdrop : r2.drop key.length = r3 := by
            rw [dropLit_some h3]
            exact List.drop_left key r3
          simp [matchSpanCvar, wsThen, h1, h2, hws1, hpre, hdrop, hws3, h4, h]
          exact List.isPrefixOf_iff_prefix.mp hpre

theorem wsThenCont_pos {α : Type} {q : List Char → List (List Char) → Option (Nat × α)}
    {ls : List (List Char)} {n : Nat} {a : α}
    (h : wsThenCont q ls = some (n, a)) : 1 ≤ n := by
  cases ls with
  | nil => simp [wsThenCont] at h
  | cons L rest =>
    simp only [wsThenCont] at h
    split at h
    · cases hm : wsThenCont q rest with
      | none => rw [hm] at h; simp at h
      | some p =>
        rw [hm] at h
        obtain ⟨m, b⟩ := p
        simp only [Option.map_some', Option.some.injEq, Prod.mk.injEq] at h
        omega
    · cases hm : q (L.dropWhile isPySpace) rest with
      | none => rw [hm] at h; simp at h
      | some p =>
        rw [hm] at h
        obtain ⟨m, b⟩ := p
        simp only [Option.map_some', Option.some.injEq, Prod.mk.injEq] at h
        omega

/-- A span-1 match of the cross-line scanner is a within-line match. -/
theorem matchSpanCvar_one {key L g : List Char} (rest : List (List Char))
    (h : matchSpanCvar key (L :: rest) = some (1, g)) : cvarValue key L = some g := by
  have hm0 : matchSpanCvar key (L :: rest)
      = ((dropLit "set".data L).bind (fun r1 =>
          wsThen (fun r2 rest2 =>
            if key.isPrefixOf r2 then
              wsThen (fun r4 _ => (quoteGroupAt r4).map (fun g => (0, g)))
                (r2.drop key.length) rest2
            else none) r1 rest)).map (fun p => (p.1 + 1, p.2)) := rfl
  rw [hm0] at h
  cases h1 : dropLit "set".data L with
  | none => rw [h1] at h; simp at h
  | some r1 =>
    rw [h1] at h
    simp only [Option.some_bind] at h
    cases hw : wsThen (fun r2 rest2 =>
        if key.isPrefixOf r2 then
          wsThen (fun r4 _ => (quoteGroupAt r4).map (fun g => (0, g)))
            (r2.drop key.length) rest2
        else none) r1 rest with
    | none => rw [hw] at h; simp at h
    | some p =>
      rw [hw] at h
      obtain ⟨n, g'⟩ := p
      simp only [Option.map_some', Option.some.injEq, Prod.mk.injEq] at h
      obtain ⟨hn, hg⟩ := h
      have hn0 : n = 0 := by omega
      subst hn0
      subst hg
      unfold wsThen at hw
      split at hw
      · exact absurd (wsThenCont_pos hw) (by omega)
      · cases h2 : dropWs1 r1 with
        | none => rw [h2] at hw; simp at hw
        | some r2 =>
          rw [h2] at hw
          simp only [Option.some_bind] at hw
          split at hw
          · rename_i hpre
            split at hw
            · exact absurd (wsThenCont_pos hw) (by omega)
            · cases h4 : dropWs1 (r2.drop key.length) with
              | none => rw [h4] at hw; simp at hw
              | some r4 =>
                rw [h4] at hw
                simp only [Option.some_bind] at hw
                cases hq : quoteGroupAt r4 with
                | none => rw [hq] at hw; simp at hw
                | some g0 =>
                  rw [hq] at hw
                  simp only [Option.map_some', Option.some.injEq, Prod.mk.injEq] at hw
                  unfold cvarValue
                  rw [h1]
                  simp only [Option.some_bind]
                  rw [h2]
                  simp only [Option.some_bind]
                  rw [dropLit_of_prefixMatch hpre]
                  simp only [Option.some_bind]
                  rw [h4]
                  simp only [Option.some_bind]
                  rw [hq, hw.2]
          · exact absurd hw (by simp)

/-- On a file where every match of the query pattern lies within a single
line, the scan of the captured groups is the per-line `filterMap`. -/
theorem cvarFindScan_eq_filterMap {key : List Char} :
    ∀ (fuel : Nat) (ls : List (List Char)), ls.length ≤ fuel →
      (∀ i < ls.length,
        ((matchSpanCvar key (ls.drop i)).all (fun p => p.1 == 1)) = true) →
      cvarFindScan key fuel ls = ls.filterMap (cvarValue key) := by
  intro fuel
  induction fuel with
  | zero =>
    intro ls hle _
    cases ls with
    | nil => rfl
    | cons L rest => simp at hle
  | succ fuel ih =>
    intro ls hle hsp
    cases ls with
    | nil => rfl
    | cons L rest =>
      have hle' : rest.length ≤ fuel := Nat.le_of_succ_le_succ hle
      have hsp' : ∀ i < rest.length,
          ((matchSpanCvar key (rest.drop i)).all (fun p => p.1 == 1)) = true := by
        intro i hi
        have := hsp (i + 1) (by simpa using Nat.succ_lt_succ hi)
        simpa [List.drop_succ_cons] using this
      cases hm : matchSpanCvar key (L :: rest) with
      | none =>
        have hcv : cvarValue key L = none := by
          cases hcv : cvarValue key L with
          | none => rfl
          | some g =>
            rw [cvarValue_matchSpan rest hcv] at hm
            exact absurd hm (by simp)
        rw [show cvarFindScan key (fuel + 1) (L :: rest) = cvarFindScan key fuel rest
          from by simp [cvarFindScan, hm]]
        rw [ih rest hle' hsp', List.filterMap_cons, hcv]
      | some p =>
        obtain ⟨n, g⟩ := p
        have hn1 : n = 1 := by
          have h0 := hsp 0 (by simp)
          rw [show (L :: rest).drop 0 = L :: rest from rfl, hm] at h0
          simpa using h0
        subst hn1
        have hcv : cvarValue key L = some g := matchSpanCvar_one rest hm
        rw [show cvarFindScan key (fuel + 1) (L :: rest)
              = g :: cvarFindScan key fuel (rest.drop (1 - 1))
            from by simp [cvarFindScan, hm]]
        rw [show rest.drop (1 - 1) = rest from rfl]
        rw [ih rest hle' hsp', List.filterMap_cons, hcv]

/-- C8, amended.  When every match of the query pattern in the file lies
within a single line, and some line matches `set CVAR "VALUE"`, `get_cvar`
returns the value captured on the last matching line in file order.  (The
source's `re.findall` also accepts matches whose `\s+` runs cross
newlines, in scan order; see the counterexample.) -/
theorem get_cvar_last_match (config cvar v : List Char)
    (pre post : List (List Char)) (line : List Char)
    (hwl : ∀ i < (splitLines config).length,
      ((matchSpanCvar cvar ((splitLines config).drop i)).all (fun p => p.1 == 1)) = true)
    (hsplit : splitLines config = pre ++ line :: post)
    (hline : cvarValue cvar line = some v)
    (hpost : ∀ l ∈ post, cvarValue cvar l = none) :
    get_cvar config cvar = some v := by
  unfold get_cvar
  rw [cvarFindScan_eq_filterMap (splitLines config).length (splitLines config) le_rfl hwl]
  have hpostnil : post.filterMap (cvarValue cvar) = [] :=
    List.filterMap_eq_nil_iff.mpr hpost
  rw [hsplit, List.filterMap_append, List.filterMap_cons, hline, hpostnil,
    List.getLast?_concat]

/-- C8, counterexample to the claim as frozen.  On the file
`set x "A"\nset\nx "B"\n` the only line of the form `set x "VALUE"` is the
`A` line, so the claim requires `get_cvar` to return `A`; the source's
`re.findall` also matches the cross-line region `set\nx "B"` (its first
`\s+` consumes the newline) and `matches[-1]` is `B`. -/
theorem get_cvar_cross_line_last_match :
    (splitLines "set x \"A\"\nset\nx \"B\"\n".data).filterMap (cvarValue "x".data)
      = ["A".data]
    ∧ get_cvar "set x \"A\"\nset\nx \"B\"\n".data "x".data = some "B".data
    ∧ ("B".data : List Char) ≠ "A".data := by
  decide

/-- Witness for the amended C8 theorem: on a file with the conflicting
lines `set x "A"` then `set x "B"` (all matches within one line), the
query returns the later value `B`. -/
theorem get_cvar_last_match_witness :
    get_cvar "set x \"A\"\nset x \"B\"\n".data "x".data = some "B".data :=
  get_cvar_last_match "set x \"A\"\nset x \"B\"\n".data "x".data "B".data
    ["set x \"A\"".data] [[]] "set x \"B\"".data
    (by decide) (by decide) (by decide) (by decide)

/-! ## Mapvote cycle builder (`ServerManager.build_mapvote_cycle`,
managers.py 406-434) -/

/-- One iteration of the `for i, _map in enumerate(maps)` loop
(managers.py 424-425): the jump target for index `i`.  `_map.lower()` is
modelled with `Char.toLower` per character (identical on the ASCII map
names in scope). -/
def mapvoteEntry (i : Nat) (m : List Char) : List Char :=
  "set d".data ++ (Nat.repr i).data ++ " \"set g_gametype 6 ; map ".data
    ++ m.map Char.toLower ++ " ; set nextmap vstr d".data
    ++ (Nat.repr (i + 1)).data ++ "\"\n".data

/-- The loop of `build_mapvote_cycle`, accumulating entries from index
`i` upward. -/
def mapvoteLoop : Nat → List (List Char) → List Char
  | _, [] => []
  | i, m :: ms => mapvoteEntry i m ++ mapvoteLoop (i + 1) ms

/-- The full text written by `build_mapvote_cycle` (guessed-names mode):
two header comment lines (the second carries the creation timestamp `now`),
a blank line, one jump target per enabled map, and the trailing `vstr d0`
line. -/
def build_mapvote_cycle (now : List Char) (maps : List (List Char)) : List Char :=
  "// Mapvote cycle (Generated by etsm)\n// Create Time ".data ++ now
    ++ "\n\n".data ++ mapvoteLoop 0 maps ++ "vstr d0\n".data

theorem mapvoteLoop_eq_range (maps : List (List Char)) (j : Nat) :
    mapvoteLoop j maps
      = ((List.range maps.length).map (fun i => mapvoteEntry (j + i) (maps.getD i []))).flatten := by
  induction maps generalizing j with
  | nil => simp [mapvoteLoop]
  | cons m ms ih =>
    rw [show mapvoteLoop j (m :: ms) = mapvoteEntry j m ++ mapvoteLoop (j + 1) ms from rfl,
      ih (j + 1)]
    rw [show (m :: ms).length = ms.length + 1 from rfl, List.range_succ_eq_map]
    simp only [List.map_cons, List.map_map, List.flatten_cons]
    have hfun : ((fun i => mapvoteEntry (j + i) ((m :: ms).getD i [])) ∘ Nat.succ)
        = (fun i => mapvoteEntry (j + 1 + i) (ms.getD i [])) := by
      funext i
      show mapvoteEntry (j + Nat.succ i) ((m :: ms).getD (Nat.succ i) [])
        = mapvoteEntry (j + 1 + i) (ms.getD i [])
      rw [show (m :: ms).getD (Nat.succ i) [] = ms.getD i [] from rfl,
        show j + Nat.succ i = j + 1 + i from by omega]
    rw [hfun]
    simp

/-- C5, amended.  For every non-empty enabled-map list, the generated
config consists of the header, then for each index `i` the jump target
`set di "set g_gametype 6 ; map <map_i lowercased> ; set nextmap vstr d(i+1)"`
— including the last map, whose target chains to the undefined label `dn`
(one past the end) rather than wrapping around to `d0` — followed by the
trailing `vstr d0` line. -/
theorem build_mapvote_cycle_structure (now : List Char) (maps : List (List Char))
    (_hne : maps ≠ []) :
    build_mapvote_cycle now maps
      = "// Mapvote cycle (Generated by etsm)\n// Create Time ".data ++ now
        ++ "\n\n".data
        ++ ((List.range maps.length).map (fun i => mapvoteEntry i (maps.getD i []))).flatten
        ++ "vstr d0\n".data := by
  unfold build_mapvote_cycle
  rw [mapvoteLoop_eq_range maps 0]
  simp

/-- Witness for the amended C5 theorem on the two-map list of the spec's
end-to-end scenario. -/
theorem build_mapvote_cycle_structure_witness :
    build_mapvote_cycle [] ["goldrush".data, "adlernest".data]
      = "// Mapvote cycle (Generated by etsm)\n// Create Time ".data ++ []
        ++ "\n\n".data
        ++ ((List.range 2).map
            (fun i => mapvoteEntry i (["goldrush".data, "adlernest".data].getD i []))).flatten
        ++ "vstr d0\n".data :=
  build_mapvote_cycle_structure [] ["goldrush".data, "adlernest".data] (by decide)

/-- C5, counterexample to the claim as frozen.  With the enabled maps
`goldrush` and `adlernest`, no jump target chains back to `d0`: the text
contains no occurrence of `set nextmap vstr d0`, while the final target
chains to the undefined label `d2` instead. -/
theorem build_mapvote_cycle_no_wraparound :
    isSubstr "set nextmap vstr d0".data
        (build_mapvote_cycle [] ["goldrush".data, "adlernest".data]) = false
    ∧ isSubstr "set nextmap vstr d2".data
        (build_mapvote_cycle [] ["goldrush".data, "adlernest".data]) = true := by
  decide

/-! ## Config deactivation (`ServerManager.deactivate_config`,
managers.py 472-478) -/

/-- `ServerManager.deactivate_config`.  Its first statement,
`config_path = self.server_path / "etmain" / config_path.name`, reads the
local variable `config_path` on its own right-hand side before any
assignment to it (the parameter is `config_name`, not `config_path`); in
Python this raises `UnboundLocalError` immediately, so the remaining
statements — the existence check with a logged error and early return, and
the `os.unlink` — are unreachable for every input.  The unreachable
continuation is kept in the `some` branch for reference; the local is
always unbound (`none`). -/
def deactivate_config (etmainEntries : List String) (_config_name : String) :
    PyResult (List String) :=
  match (none : Option String) with
  | some pathName =>
    if pathName ∈ etmainEntries then PyResult.ok (etmainEntries.erase pathName)
    else PyResult.ok etmainEntries
  | none =>
    PyResult.raised "UnboundLocalError: local variable config_path referenced before assignment"

/-- C6 (code bug).  `deactivate_config` raises `UnboundLocalError` on every
input — it never removes the activation symlink and never takes the
logged-error early return, contrary to the claim. -/
theorem deactivate_config_always_raises (etmainEntries : List String)
    (config_name : String) :
    deactivate_config etmainEntries config_name
      = PyResult.raised
          "UnboundLocalError: local variable config_path referenced before assignment" := rfl

/-! ## Enabled-map listing (`ServerManager.list_enabled_maps`,
managers.py 518-524) -/

/-- A directory entry of the server's `etmain` directory, as seen through
`Path.iterdir` / `Path.is_dir`. -/
structure DirEntry where
  name : String
  isDir : Bool
deriving DecidableEq

/-- Python `x.name.endswith(".pk3")`. -/
def endsWithPk3 (s : String) : Bool :=
  ".pk3".data.isSuffixOf s.data

/-- Python `x.name[:-len(".pk3")]`: the name with its last four characters
removed. -/
def stripPk3 (s : String) : String :=
  ⟨s.data.take (s.data.length - 4)⟩

/-- Python `list.remove`: removes the first occurrence of the value, and
raises `ValueError` when the value is absent. -/
def pyListRemove (l : List String) (x : String) : PyResult (List String) :=
  if x ∈ l then PyResult.ok (l.erase x)
  else PyResult.raised "ValueError: list.remove(x): x not in list"

/-- The list comprehension of managers.py 519: stripped names of the
non-directory entries ending in `.pk3`. -/
def enabledPk3Names (etmain : List DirEntry) : List String :=
  (etmain.filter (fun x => !x.isDir && endsWithPk3 x.name)).map (fun x => stripPk3 x.name)

/-- `ServerManager.list_enabled_maps`: builds the stripped `.pk3` name list
and then calls `pk3s.remove("pak0")`, `pk3s.remove("pak1")`,
`pk3s.remove("pak2")` in order (managers.py 521-523). -/
def list_enabled_maps (etmain : List DirEntry) : PyResult (List String) :=
  let pk3s := enabledPk3Names etmain
  match pyListRemove pk3s "pak0" with
  | PyResult.raised e => PyResult.raised e
  | PyResult.ok l1 =>
    match pyListRemove l1 "pak1" with
    | PyResult.raised e => PyResult.raised e
    | PyResult.ok l2 => pyListRemove l2 "pak2"

/-- C7, counterexample to the claim as frozen.  On an `etmain` directory
holding only `oasis.pk3` (no reserved pak archives), the listing raises
`ValueError` from `list.remove` instead of returning `["oasis"]`. -/
theorem list_enabled_maps_raises_without_paks :
    list_enabled_maps [⟨"oasis.pk3", false⟩]
      = PyResult.raised "ValueError: list.remove(x): x not in list"
    ∧ list_enabled_maps [⟨"oasis.pk3", false⟩] ≠ PyResult.ok ["oasis"] := by
  decide

theorem endsWithPk3_decomp {s : String} (h : endsWithPk3 s = true) :
    s.data = s.data.take (s.data.length - 4) ++ ".pk3".data := by
  have hsuf : ".pk3".data <:+ s.data := by
    have := List.isSuffixOf_iff_suffix.mp h
    exact this
  rcases hsuf with ⟨t, ht⟩
  have hlen : s.data.length - 4 = t.length := by
    rw [← ht]
    simp
  rw [hlen, ← ht, List.take_left]

theorem stripPk3_inj {a b : String} (ha : endsWithPk3 a = true)
    (hb : endsWithPk3 b = true) (h : stripPk3 a = stripPk3 b) : a = b := by
  have hdata : a.data.take (a.data.length - 4) = b.data.take (b.data.length - 4) :=
    congrArg String.data h
  have : a.data = b.data := by
    rw [endsWithPk3_decomp ha, endsWithPk3_decomp hb, hdata]
  cases a
  cases b
  exact congrArg String.mk this

/-- C7, amended.  When the three reserved base-game archives are all
present as non-directory `.pk3` entries (as `update_server` guarantees for
an installed server), the listing returns exactly the stripped names of the
other non-directory `.pk3` entries, the reserved trio being excluded by
exact name match; when any reserved archive is missing, `list.remove`
raises `ValueError` instead (see the counterexample). -/
theorem list_enabled_maps_excludes_paks (etmain : List DirEntry)
    (hnodup : (etmain.map DirEntry.name).Nodup)
    (h0 : "pak0" ∈ enabledPk3Names etmain)
    (h1 : "pak1" ∈ enabledPk3Names etmain)
    (h2 : "pak2" ∈ enabledPk3Names etmain) :
    list_enabled_maps etmain
      = PyResult.ok ((enabledPk3Names etmain).filter
          (fun n => !(n == "pak0" || n == "pak1" || n == "pak2"))) := by
  have hnd : (enabledPk3Names etmain).Nodup := by
    unfold enabledPk3Names
    have hsub : List.Sublist
        ((etmain.filter (fun x => !x.isDir && endsWithPk3 x.name)).map DirEntry.name)
        (etmain.map DirEntry.name) :=
      (List.filter_sublist etmain).map DirEntry.name
    have hnd1 : ((etmain.filter (fun x => !x.isDir && endsWithPk3 x.name)).map
        DirEntry.name).Nodup := hnodup.sublist hsub
    rw [show (etmain.filter (fun x => !x.isDir && endsWithPk3 x.name)).map
          (fun x => stripPk3 x.name)
        = ((etmain.filter (fun x => !x.isDir && endsWithPk3 x.name)).map
          DirEntry.name).map stripPk3 from by rw [List.map_map]; rfl]
    refine hnd1.map_on ?_
    intro a ha b hb hab
    have hpa : endsWithPk3 a = true := by
      rcases List.mem_map.mp ha with ⟨x, hx, hxa⟩
      have := List.of_mem_filter hx
      rw [← hxa]
      exact (Bool.and_eq_true _ _ |>.mp this).2
    have hpb : endsWithPk3 b = true := by
      rcases List.mem_map.mp hb with ⟨x, hx, hxb⟩
      have := List.of_mem_filter hx
      rw [← hxb]
      exact (Bool.and_eq_true _ _ |>.mp this).2
    exact stripPk3_inj hpa hpb hab
  have h1' : "pak1" ∈ (enabledPk3Names etmain).erase "pak0" :=
    (List.mem_erase_of_ne (by decide)).mpr h1
  have h2' : "pak2" ∈ ((enabledPk3Names etmain).erase "pak0").erase "pak1" :=
    (List.mem_erase_of_ne (by decide)).mpr ((List.mem_erase_of_ne (by decide)).mpr h2)
  unfold list_enabled_maps
  dsimp only
  rw [show pyListRemove (enabledPk3Names etmain) "pak0"
        = PyResult.ok ((enabledPk3Names etmain).erase "pak0") from by
      simp [pyListRemove, h0]]
  dsimp only
  rw [show pyListRemove ((enabledPk3Names etmain).erase "pak0") "pak1"
        = PyResult.ok (((enabledPk3Names etmain).erase "pak0").erase "pak1") from by
      simp [pyListRemove, h1']]
  dsimp only
  rw [show pyListRemove (((enabledPk3Names etmain).erase "pak0").erase "pak1") "pak2"
        = PyResult.ok ((((enabledPk3Names etmain).erase "pak0").erase "pak1").erase "pak2")
      from by simp [pyListRemove, h2']]
  congr 1
  calc (((enabledPk3Names etmain).erase "pak0").erase "pak1").erase "pak2"
      = (((enabledPk3Names etmain).filter (· != "pak0")).filter (· != "pak1")).filter
          (· != "pak2") := by
        rw [hnd.erase_eq_filter, (hnd.filter _).erase_eq_filter,
          ((hnd.filter _).filter _).erase_eq_filter]
    _ = (enabledPk3Names etmain).filter
          (fun n => !(n == "pak0" || n == "pak1" || n == "pak2")) := by
        rw [List.filter_filter, List.filter_filter]
        refine List.filter_congr ?_
        intro a ha
        cases hb0 : (a == "pak0") <;> cases hb1 : (a == "pak1") <;>
          cases hb2 : (a == "pak2") <;> simp [bne, hb0, hb1, hb2]

/-- Witness for the amended C7 theorem on an `etmain` directory holding the
three reserved archives and one enabled map. -/
theorem list_enabled_maps_excludes_paks_witness :
    list_enabled_maps
        [⟨"pak0.pk3", false⟩, ⟨"pak1.pk3", false⟩, ⟨"pak2.pk3", false⟩,
          ⟨"oasis.pk3", false⟩]
      = PyResult.ok ((enabledPk3Names
          [⟨"pak0.pk3", false⟩, ⟨"pak1.pk3", false⟩, ⟨"pak2.pk3", false⟩,
            ⟨"oasis.pk3", false⟩]).filter
          (fun n => !(n == "pak0" || n == "pak1" || n == "pak2"))) :=
  list_enabled_maps_excludes_paks
    [⟨"pak0.pk3", false⟩, ⟨"pak1.pk3", false⟩, ⟨"pak2.pk3", false⟩, ⟨"oasis.pk3", false⟩]
    (by decide) (by decide) (by decide) (by decide)

/-! ## Artifact fetcher (`SourcesManager.download_file_progress`,
managers.py 85-113, and `sizeof_fmt`, managers.py 40-46) -/

/-- An HTTP response as `download_file_progress` observes it: status code,
the optional `content-length` header value, and the body chunks yielded by
`iter_content`. -/
structure HttpResponse where
  status : Nat
  contentLength : Option Nat
  chunks : List (List Nat)
deriving DecidableEq

/-- The first statement of `sizeof_fmt`, `num = int(num)` (managers.py 41):
raises `TypeError` when its argument is `None`.  The subsequent
floating-point formatting of the human-readable size never raises and its
string is irrelevant to the claims, so it is not modelled. -/
def sizeof_fmt_int (num : Option Nat) : PyResult Unit :=
  match num with
  | none => PyResult.raised "TypeError: int() argument must be a string, a bytes-like object or a real number, not NoneType"
  | some _ => PyResult.ok ()

/-- `SourcesManager.download_file_progress`, returning the Python return
value (`True` on success, `None` on a non-200 status) paired with the bytes
written to the destination file.  Note the order of operations in the
source: line 93 evaluates `sizeof_fmt(total_length)` BEFORE the
`total_length is None` test at line 94, so the dedicated
no-content-length branch (lines 94-102) is unreachable — its would-be
behaviour (raising again at line 100 computing `50 * dl / None`, after
writing the first chunk) is kept in the dead second arm only for
reference.  On the progress path, `done = int(50 * dl / total_length)`
raises `ZeroDivisionError` when the header declares length zero and a
chunk arrives. -/
def download_file_progress (resp : HttpResponse) : PyResult (Option Bool × List Nat) :=
  if resp.status ≠ 200 then PyResult.ok (none, [])
  else
    match sizeof_fmt_int resp.contentLength, resp.contentLength with
    | PyResult.raised e, _ => PyResult.raised e
    | PyResult.ok _, none =>
      if resp.chunks ≠ [] then
        PyResult.raised "TypeError: unsupported operand type for division"
      else PyResult.ok (some true, [])
    | PyResult.ok _, some total =>
      if total = 0 ∧ resp.chunks ≠ [] then
        PyResult.raised "ZeroDivisionError: division by zero"
      else PyResult.ok (some true, resp.chunks.flatten)

/-- C9 (code bug).  On an HTTP 200 response without a content-length
header, the fetcher raises `TypeError` from `sizeof_fmt(None)` before
writing any chunk, instead of writing all received bytes and completing
without an exception as claimed. -/
theorem download_file_progress_no_content_length_raises :
    download_file_progress ⟨200, none, [[100, 97, 116, 97]]⟩
      = PyResult.raised "TypeError: int() argument must be a string, a bytes-like object or a real number, not NoneType"
    ∧ download_file_progress ⟨200, none, [[100, 97, 116, 97]]⟩
      ≠ PyResult.ok (some true, [100, 97, 116, 97]) := by
  constructor
  · rfl
  · intro h
    simp [download_file_progress, sizeof_fmt_int] at h

/-! ## ServerManager construction (`ServerManager.__init__`,
managers.py 277-294, defaults at 29-38) -/

/-- The JSON state record of a server and its defaults
(`SERVER_CONFIG_DEFAULTS`, managers.py 29-38). -/
structure ServerConfigRecord where
  server_type : String
  server_ip : String
  server_port : Nat
  server_password : String
  server_mod : String
  startup_configs : List String
deriving DecidableEq

def SERVER_CONFIG_DEFAULTS : ServerConfigRecord :=
  { server_type := "etl"
    server_ip := "0.0.0.0"
    server_port := 27960
    server_password := ""
    server_mod := "legacy"
    startup_configs := ["etl_server.cfg"] }

/-- The parts of the filesystem that `ServerManager.__init__` touches:
the etsm home directory, the server's root directory, its `etsm_configs`
directory, and the `.etsm_config` JSON state file. -/
structure ServerFsState where
  homeDirExists : Bool
  serverDirExists : Bool
  configDirExists : Bool
  stateFile : Option ServerConfigRecord
deriving DecidableEq

/-- Python `re.match(r'^[A-Za-z0-9_]+$', s)` as a boolean: one or more
word characters spanning the whole string (`$` also matches just before a
single trailing newline, a quirk of Python's `$` kept for fidelity). -/
def serverNameMatch (s : String) : Bool :=
  let core := if s.data.getLast? = some '\n' then s.data.dropLast else s.data
  !core.isEmpty && core.all isWordChar

/-- `ServerManager.__init__`: a `None` name falls back to `"default"`; an
invalid name raises `SyntaxError`; otherwise the three `mkdir(parents=True,
exist_ok=True)` calls materialize the directories unconditionally and
`JSONConfigurationFile(..., auto_create=SERVER_CONFIG_DEFAULTS)` loads the
state file, creating it populated with the defaults when absent (the
auto-create semantics of the external `clilib` configuration loader, per
the spec: the state file is auto-created with defaults on first access). -/
def server_manager_init (server_name : Option String) (fs : ServerFsState) :
    PyResult (String × ServerFsState) :=
  let name := server_name.getD "default"
  if !(serverNameMatch name) then
    PyResult.raised "SyntaxError: Invalid server name"
  else
    PyResult.ok (name,
      { homeDirExists := true
        serverDirExists := true
        configDirExists := true
        stateFile := some (fs.stateFile.getD SERVER_CONFIG_DEFAULTS) })

/-- C10.  Constructing a ServerManager for a valid server name on a
filesystem where the server has never been created materializes the home,
server and config directories and the state file populated with the
default record, whose fields are exactly the claimed defaults (plus the
empty password). -/
theorem server_manager_init_materializes (name : String) (fs : ServerFsState)
    (hname : serverNameMatch name = true) (habsent : fs.stateFile = none) :
    server_manager_init (some name) fs
      = PyResult.ok (name,
          { homeDirExists := true
            serverDirExists := true
            configDirExists := true
            stateFile := some SERVER_CONFIG_DEFAULTS })
    ∧ SERVER_CONFIG_DEFAULTS.server_type = "etl"
    ∧ SERVER_CONFIG_DEFAULTS.server_ip = "0.0.0.0"
    ∧ SERVER_CONFIG_DEFAULTS.server_port = 27960
    ∧ SERVER_CONFIG_DEFAULTS.server_mod = "legacy"
    ∧ SERVER_CONFIG_DEFAULTS.startup_configs = ["etl_server.cfg"] := by
  refine ⟨?_, rfl, rfl, rfl, rfl, rfl⟩
  simp [server_manager_init, hname, habsent]

/-- Witness for C10 at the spec's end-to-end scenario name `test1` on an
empty filesystem. -/
theorem server_manager_init_materializes_witness :
    server_manager_init (some "test1") ⟨false, false, false, none⟩
      = PyResult.ok ("test1",
          { homeDirExists := true
            serverDirExists := true
            configDirExists := true
            stateFile := some SERVER_CONFIG_DEFAULTS })
    ∧ SERVER_CONFIG_DEFAULTS.server_type = "etl"
    ∧ SERVER_CONFIG_DEFAULTS.server_ip = "0.0.0.0"
    ∧ SERVER_CONFIG_DEFAULTS.server_port = 27960
    ∧ SERVER_CONFIG_DEFAULTS.server_mod = "legacy"
    ∧ SERVER_CONFIG_DEFAULTS.startup_configs = ["etl_server.cfg"] :=
  server_manager_init_materializes "test1" ⟨false, false, false, none⟩
    (by decide) (by decide)

/-! ## Checksum cache gate (`md5sum`, managers.py 48-59, and the
download decision of `SourcesManager.download_server_sources`,
managers.py 163-171) -/

/-- MD5, translated from its standard specification, which `hashlib.md5`
implements.  32-bit words are `Nat` reduced modulo `2 ^ 32`. -/

def u32 (n : Nat) : Nat := n % 4294967296

def rotl32 (x s : Nat) : Nat := (x % 2 ^ (32 - s)) * 2 ^ s + x / 2 ^ (32 - s)

def bnot32 (x : Nat) : Nat := 4294967295 - u32 x

def mdF (b c d : Nat) : Nat := (b &&& c) ||| (bnot32 b &&& d)
def mdG (b c d : Nat) : Nat := (d &&& b) ||| (bnot32 d &&& c)
def mdH (b c d : Nat) : Nat := b ^^^ c ^^^ d
def mdI (b c d : Nat) : Nat := c ^^^ (b ||| bnot32 d)

def md5K : List Nat :=
  [0xd76aa478, 0xe8c7b756, 0x242070db, 0xc1bdceee,
   0xf57c0faf, 0x4787c62a, 0xa8304613, 0xfd469501,
   0x698098d8, 0x8b44f7af, 0xffff5bb1, 0x895cd7be,
   0x6b901122, 0xfd987193, 0xa679438e, 0x49b40821,
   0xf61e2562, 0xc040b340, 0x265e5a51, 0xe9b6c7aa,
   0xd62f105d, 0x02441453, 0xd8a1e681, 0xe7d3fbc8,
   0x21e1cde6, 0xc33707d6, 0xf4d50d87, 0x455a14ed,
   0xa9e3e905, 0xfcefa3f8, 0x676f02d9, 0x8d2a4c8a,
   0xfffa3942, 0x8771f681, 0x6d9d6122, 0xfde5380c,
   0xa4beea44, 0x4bdecfa9, 0xf6bb4b60, 0xbebfbc70,
   0x289b7ec6, 0xeaa127fa, 0xd4ef3085, 0x04881d05,
   0xd9d4d039, 0xe6db99e5, 0x1fa27cf8, 0xc4ac5665,
   0xf4292244, 0x432aff97, 0xab9423a7, 0xfc93a039,
   0x655b59c3, 0x8f0ccc92, 0xffeff47d, 0x85845dd1,
   0x6fa87e4f, 0xfe2ce6e0, 0xa3014314, 0x4e0811a1,
   0xf7537e82, 0xbd3af235, 0x2ad7d2bb, 0xeb86d391]

def md5S : List Nat :=
  [7, 12, 17, 22, 7, 12, 17, 22, 7, 12, 17, 22, 7, 12, 17, 22,
   5, 9, 14, 20, 5, 9, 14, 20, 5, 9, 14, 20, 5, 9, 14, 20,
   4, 11, 16, 23, 4, 11, 16, 23, 4, 11, 16, 23, 4, 11, 16, 23,
   6, 10, 15, 21, 6, 10, 15, 21, 6, 10, 15, 21, 6, 10, 15, 21]

def md5Round (M : List Nat) (st : Nat × Nat × Nat × Nat) (i : Nat) :
    Nat × Nat × Nat × Nat :=
  let (a, b, c, d) := st
  let f :=
    if i < 16 then mdF b c d
    else if i < 32 then mdG b c d
    else if i < 48 then mdH b c d
    else mdI b c d
  let g :=
    if i < 16 then i
    else if i < 32 then (5 * i + 1) % 16
    else if i < 48 then (3 * i + 5) % 16
    else (7 * i) % 16
  let tmp := u32 (f + a + md5K.getD i 0 + M.getD g 0)
  (d, u32 (b + rotl32 tmp (md5S.getD i 0)), b, c)

def wordLE (bytes4 : List Nat) : Nat :=
  bytes4.getD 0 0 + 256 * bytes4.getD 1 0 + 65536 * bytes4.getD 2 0
    + 16777216 * bytes4.getD 3 0

def md5Block (st : Nat × Nat × Nat × Nat) (block : List Nat) :
    Nat × Nat × Nat × Nat :=
  let M := (List.range 16).map (fun j => wordLE ((block.drop (4 * j)).take 4))
  let r := (List.range 64).foldl (md5Round M) st
  (u32 (st.1 + r.1), u32 (st.2.1 + r.2.1), u32 (st.2.2.1 + r.2.2.1),
    u32 (st.2.2.2 + r.2.2.2))

def md5Pad (msg : List Nat) : List Nat :=
  let L := msg.length
  let padZeros := (119 - L % 64) % 64
  msg ++ [128] ++ List.replicate padZeros 0
    ++ (List.range 8).map (fun j => 8 * L / 256 ^ j % 256)

def chunks64 : Nat → List Nat → List (List Nat)
  | 0, _ => []
  | n + 1, l => l.take 64 :: chunks64 n (l.drop 64)

def wordBytesLE (x : Nat) : List Nat :=
  [x % 256, x / 256 % 256, x / 65536 % 256, x / 16777216 % 256]

def md5Bytes (msg : List Nat) : List Nat :=
  let padded := md5Pad msg
  let blocks := chunks64 (padded.length / 64) padded
  let r := blocks.foldl md5Block (0x67452301, 0xefcdab89, 0x98badcfe, 0x10325476)
  wordBytesLE r.1 ++ wordBytesLE r.2.1 ++ wordBytesLE r.2.2.1 ++ wordBytesLE r.2.2.2

def hexDigitChar (n : Nat) : Char := "0123456789abcdef".data.getD n '0'

def byteHex (b : Nat) : List Char := [hexDigitChar (b / 16 % 16), hexDigitChar (b % 16)]

def md5Hex (msg : List Nat) : String := ⟨((md5Bytes msg).map byteHex).flatten⟩

/-- `md5sum` (managers.py 48-59) on the optional content of the local
file: returns the `default` (`None`) when the file does not exist,
otherwise the hex digest of the file's bytes.  The source feeds
`hashlib.md5` with 8192-byte chunks; consecutive `update` calls hash the
concatenation of the chunks, i.e. the whole content. -/
def md5sum (file : Option (List Nat)) : Option String :=
  file.map md5Hex

/-- The checksum cache gate: the condition
`md5sum(destination) != r_chk` of managers.py 168 deciding whether the
archive must be downloaded.  `None != r_chk` is true in Python for a
string `r_chk`. -/
def fetchNeeded (localFile : Option (List Nat)) (r_chk : String) : Bool :=
  match md5sum localFile with
  | none => true
  | some h => h != r_chk

set_option maxRecDepth 400000 in
/-- C4.  The gate requests a fetch exactly when the local artifact is
absent or its MD5 hex digest differs from the manifest hash, and skips the
download otherwise (the gate is a pure read of the file); the hash of the
three-byte file `b"abc"` is the well-known MD5 value. -/
theorem md5_gate_fetch_decision :
    (∀ r_chk : String, fetchNeeded none r_chk = true)
    ∧ (∀ (bs : List Nat) (r_chk : String),
        fetchNeeded (some bs) r_chk = false ↔ md5Hex bs = r_chk)
    ∧ md5Hex [97, 98, 99] = "900150983cd24fb0d6963f7d28e17f72" := by
  refine ⟨fun _ => rfl, fun bs r_chk => ?_, by decide⟩
  simp [fetchNeeded, md5sum, bne_eq_false_iff_eq]

end Etsm
